import Mathlib

/-!
# Verification of the UrlUploaderV3 job pipeline

Shallow embedding of the core of the UrlUploaderV3 bot (files
src/bot/yt_helper.py and src/bot/main.py) together with proofs of the
claims about it:

* the per-line progress parsing inside YTDLHelper.download_url,
* the success condition of download_url,
* format extraction (YTDLHelper.extract_formats) and the caller that
  appends the implicit best choice,
* file segmentation (YTDLHelper.split_file),
* the admission registry (active_processes) driven by download_callback,
  process_download and cancel_download,
* the cleanup behaviour of process_download on terminal transitions.

Python strings are modelled by Lean String, Python floats by exact
rationals, Python dict.get by Option fields, raised exceptions by Except.
-/

namespace UrlUploader

/-! ## Python string primitives

Helpers mirroring the exact Python string operations the source uses:
str.split() (whitespace), str.split(sep), str.strip(), str.rstrip(chars),
the substring test of the in operator, str.lower, str.startswith,
str.endswith and str.replace. -/

/-- Whether the second list starts with the first (used for substring and
startswith tests). -/
def listStarts : List Char → List Char → Bool
  | [], _ => true
  | _ :: _, [] => false
  | a :: as_, b :: bs => a = b && listStarts as_ bs

/-- Python substring containment on char lists: the in operator for str. -/
def listHasSub (sep : List Char) : List Char → Bool
  | [] => sep.isEmpty
  | c :: rest => listStarts sep (c :: rest) || listHasSub sep rest

/-- Python substring containment: sub in s. -/
def strHasSub (s sub : String) : Bool := listHasSub sub.toList s.toList

/-- Python s.startswith(p). -/
def strStarts (s p : String) : Bool := listStarts p.toList s.toList

/-- Python s.endswith(p). -/
def strEnds (s p : String) : Bool := listStarts p.toList.reverse s.toList.reverse

/-- Python s.lower() (ASCII case folding, which is all the source needs). -/
def strLower (s : String) : String := String.mk (s.toList.map Char.toLower)

/-- Python str.split() with no argument: split on runs of whitespace,
discarding empty pieces. -/
def splitWsGo : List Char → List Char → List String
  | acc, [] => if acc.isEmpty then [] else [String.mk acc.reverse]
  | acc, c :: rest =>
    if c.isWhitespace then
      if acc.isEmpty then splitWsGo [] rest
      else String.mk acc.reverse :: splitWsGo [] rest
    else splitWsGo (c :: acc) rest

/-- Python s.split() (no separator argument). -/
def pySplitWs (s : String) : List String := splitWsGo [] s.toList

/-- Python s.split(sep) for a non-empty separator, on char lists, with
explicit fuel (each step consumes at least one character, so fuel =
length of the input is enough; structural recursion keeps the function
kernel-reducible).  An empty separator raises ValueError in Python; the
source only ever passes the literal "Destination:", so that case is
unreachable and is modelled as returning the whole input in one piece. -/
def splitOnGo (sep : List Char) : ℕ → List Char → List (List Char)
  | _, [] => [[]]
  | 0, cs => [cs]
  | fuel + 1, c :: rest =>
    if listStarts sep (c :: rest) then
      [] :: splitOnGo sep fuel (List.drop sep.length (c :: rest))
    else
      match splitOnGo sep fuel rest with
      | [] => [[c]]
      | h2 :: t => (c :: h2) :: t

/-- Python s.split(sep). -/
def pySplitOn (s sep : String) : List String :=
  if sep.toList.isEmpty then [s]
  else (splitOnGo sep.toList s.toList.length s.toList).map String.mk

/-- Python s.strip(): remove leading and trailing whitespace. -/
def pyStrip (s : String) : String :=
  String.mk (((s.toList.dropWhile Char.isWhitespace).reverse.dropWhile
    Char.isWhitespace).reverse)

/-- Python s.rstrip("%"): remove trailing percent signs. -/
def pyRstripPct (s : String) : String :=
  String.mk ((s.toList.reverse.dropWhile (fun c => c = '%')).reverse)

/-- Python s.replace(old, new) with new = "" (the only use in the source:
removing occurrences of "ETA "), with fuel as for splitOnGo. -/
def removeAllGo (old : List Char) : ℕ → List Char → List Char
  | _, [] => []
  | 0, cs => cs
  | fuel + 1, c :: rest =>
    if listStarts old (c :: rest) then
      removeAllGo old fuel (List.drop old.length (c :: rest))
    else
      c :: removeAllGo old fuel rest

/-- Python s.replace(old, "") for non-empty old. -/
def strRemoveAll (s old : String) : String :=
  if old.toList.isEmpty then s
  else String.mk (removeAllGo old.toList s.toList.length s.toList)

/-! ## Python float() and the three regular expressions of download_url

The progress loop of YTDLHelper.download_url uses
* float() on the percentage and size tokens,
* re.findall with (\d+\.\d+|\d+)(Ki|Mi|Gi|Ti|B)iB? for sizes,
* re.search with at\s+(\d+\.\d+|\d+)(Ki|Mi|Gi|Ti|B)iB/s for the rate,
* re.search with ETA\s+(\d+:)?\d+:\d+ for the ETA.

Each pattern is implemented as a direct character scanner.  Backtracking
never changes the outcome for these patterns: the unit group starts with
a letter, so shrinking the greedy digit runs cannot produce a match where
the maximal run failed; the alternatives of the unit group start with
distinct letters; and for the ETA pattern taking the optional (\d+:)
group exactly when a third digit run follows reproduces the regex
engine's preference order. -/

/-- Leading decimal digits of a char list, and the rest. -/
def takeDigits (cs : List Char) : List Char × List Char :=
  (cs.takeWhile Char.isDigit, cs.dropWhile Char.isDigit)

/-- Numeric value of a list of decimal digits. -/
def digitsToNat (ds : List Char) : ℕ :=
  ds.foldl (fun n c => 10 * n + (c.toNat - 48)) 0

/-- Exponent suffix of a Python float literal ((e|E)(+|-)?digits), applied
to an already parsed mantissa; none models ValueError. -/
def pyFloatExp (mant : ℚ) : List Char → Option ℚ
  | [] => some mant
  | c :: r =>
    if c = 'e' || c = 'E' then
      let (esign, r2) : ℤ × List Char :=
        match r with
        | '-' :: rr => (-1, rr)
        | '+' :: rr => (1, rr)
        | _ => (1, r)
      let (ed, r3) := takeDigits r2
      if ed.isEmpty || !r3.isEmpty then none
      else some (mant * (10 : ℚ) ^ (esign * (digitsToNat ed : ℤ)))
    else none

/-- Python float(s) on a string: optional surrounding whitespace, optional
sign, digits with an optional fractional part (or a bare fractional
part), optional exponent.  none models ValueError.  (inf/nan spellings
and underscore separators are not modelled; no token reaching float() in
the source can take those shapes.) -/
def pyFloat (s : String) : Option ℚ :=
  let cs := ((s.toList.dropWhile Char.isWhitespace).reverse.dropWhile
    Char.isWhitespace).reverse
  let (sign, cs1) : ℚ × List Char :=
    match cs with
    | '-' :: r => (-1, r)
    | '+' :: r => (1, r)
    | _ => (1, cs)
  let (ip, r1) := takeDigits cs1
  if ip.isEmpty then
    match r1 with
    | '.' :: r2 =>
      let (fp, r3) := takeDigits r2
      if fp.isEmpty then none
      else pyFloatExp (sign * ((digitsToNat fp : ℚ) / 10 ^ fp.length)) r3
    | _ => none
  else
    match r1 with
    | '.' :: r2 =>
      let (fp, r3) := takeDigits r2
      pyFloatExp (sign * ((digitsToNat ip : ℚ) +
        (digitsToNat fp : ℚ) / 10 ^ fp.length)) r3
    | _ => pyFloatExp (sign * (digitsToNat ip : ℚ)) r1

/-- The number group (\d+\.\d+|\d+): greedy digits with an optional
fractional part; when no digit follows the dot the plain \d+ alternative
applies.  Returns the matched token and the rest. -/
def matchNumAt (cs : List Char) : Option (List Char × List Char) :=
  let (ip, r1) := takeDigits cs
  if ip.isEmpty then none
  else
    match r1 with
    | '.' :: r2 =>
      let (fp, r3) := takeDigits r2
      if fp.isEmpty then some (ip, r1)
      else some (ip ++ '.' :: fp, r3)
    | _ => some (ip, r1)

/-- The unit group (Ki|Mi|Gi|Ti|B). -/
def matchUnitAt : List Char → Option (String × List Char)
  | 'K' :: 'i' :: r => some ("Ki", r)
  | 'M' :: 'i' :: r => some ("Mi", r)
  | 'G' :: 'i' :: r => some ("Gi", r)
  | 'T' :: 'i' :: r => some ("Ti", r)
  | 'B' :: r => some ("B", r)
  | _ => none

/-- One attempt of the size pattern (\d+\.\d+|\d+)(Ki|Mi|Gi|Ti|B)iB? at
the head of the list: number group, unit group, a mandatory literal i,
an optional literal B.  Returns the two captured groups and the rest. -/
def matchSizeAt (cs : List Char) : Option ((String × String) × List Char) := do
  let (num, r1) ← matchNumAt cs
  let (unit, r2) ← matchUnitAt r1
  match r2 with
  | 'i' :: 'B' :: r4 => some ((String.mk num, unit), r4)
  | 'i' :: r3 => some ((String.mk num, unit), r3)
  | _ => none

/-- re.findall of the size pattern: scan left to right, non-overlapping,
resuming after each match.  Fuel bounds the scan; every match consumes at
least one character, so fuel = length is enough. -/
def sizeFindGo : ℕ → List Char → List (String × String)
  | 0, _ => []
  | _ + 1, [] => []
  | fuel + 1, c :: rest =>
    match matchSizeAt (c :: rest) with
    | some (g, r) => g :: sizeFindGo fuel r
    | none => sizeFindGo fuel rest

/-- re.findall(size_pattern, line). -/
def sizeFindAll (s : String) : List (String × String) :=
  sizeFindGo s.toList.length s.toList

/-- One attempt of the rate pattern at\s+(\d+\.\d+|\d+)(Ki|Mi|Gi|Ti|B)iB/s
at the head of the list, returning the two captured groups. -/
def matchSpeedAt (cs : List Char) : Option (String × String) :=
  match cs with
  | 'a' :: 't' :: r1 =>
    if (r1.takeWhile Char.isWhitespace).isEmpty then none
    else do
      let r2 := r1.dropWhile Char.isWhitespace
      let (num, r3) ← matchNumAt r2
      let (unit, r4) ← matchUnitAt r3
      match r4 with
      | 'i' :: 'B' :: '/' :: 's' :: _ => some (String.mk num, unit)
      | _ => none
  | _ => none

/-- re.search of the rate pattern: leftmost attempt that succeeds. -/
def speedSearchGo : ℕ → List Char → Option (String × String)
  | 0, _ => none
  | _ + 1, [] => none
  | fuel + 1, c :: rest =>
    match matchSpeedAt (c :: rest) with
    | some g => some g
    | none => speedSearchGo fuel rest

/-- re.search(speed_pattern, line), captured groups only. -/
def speedSearch (s : String) : Option (String × String) :=
  speedSearchGo s.toList.length s.toList

/-- One attempt of the ETA pattern ETA\s+(\d+:)?\d+:\d+ at the head of the
list, returning the full matched text (the source uses match.group()). -/
def matchEtaAt (cs : List Char) : Option (List Char) :=
  match cs with
  | 'E' :: 'T' :: 'A' :: r1 =>
    let ws := r1.takeWhile Char.isWhitespace
    if ws.isEmpty then none
    else
      let r2 := r1.dropWhile Char.isWhitespace
      let (d1, r3) := takeDigits r2
      if d1.isEmpty then none
      else
        match r3 with
        | ':' :: r4 =>
          let (d2, r5) := takeDigits r4
          if d2.isEmpty then none
          else
            match r5 with
            | ':' :: r6 =>
              let (d3, _) := takeDigits r6
              if d3.isEmpty then
                some ('E' :: 'T' :: 'A' :: ws ++ d1 ++ ':' :: d2)
              else
                some ('E' :: 'T' :: 'A' :: ws ++ d1 ++ ':' :: d2 ++ ':' :: d3)
            | _ => some ('E' :: 'T' :: 'A' :: ws ++ d1 ++ ':' :: d2)
        | _ => none
  | _ => none

/-- re.search of the ETA pattern: leftmost attempt that succeeds. -/
def etaSearchGo : ℕ → List Char → Option (List Char)
  | 0, _ => none
  | _ + 1, [] => none
  | fuel + 1, c :: rest =>
    match matchEtaAt (c :: rest) with
    | some m => some m
    | none => etaSearchGo fuel rest

/-- re.search(eta_pattern, line), full matched text. -/
def etaSearch (s : String) : Option String :=
  (etaSearchGo s.toList.length s.toList).map String.mk

/-- The unit_multiplier dict of download_url, with the .get default 1. -/
def unitMult (u : String) : ℚ :=
  if u = "B" then 1
  else if u = "Ki" then 1024
  else if u = "Mi" then 1024 * 1024
  else if u = "Gi" then 1024 * 1024 * 1024
  else if u = "Ti" then 1024 * 1024 * 1024 * 1024
  else 1

/-! ## The per-line progress parse of download_url

Lines 154-226 of yt_helper.py: the loop variables filename,
downloaded_bytes and total_bytes persist across lines; for each line the
code first applies the Destination branch (outside any per-line handler)
and then, inside a try, the progress branch whose failures are logged
and absorbed. -/

/-- The loop state of download_url's line loop: the filename,
downloaded_bytes and total_bytes variables (downloaded_bytes starts at
the int 0, total_bytes at None). -/
structure ParseState where
  filename : Option String
  downloaded : ℚ
  total : Option ℚ
deriving DecidableEq, Repr

/-- The loop variables before the first line. -/
def initParseState : ParseState := ⟨none, 0, none⟩

/-- The dict passed to progress_hook for a progress line.  The "status"
key is always the constant "downloading" and is omitted; there is no
percent field in the dict — the caller derives a percentage from
downloaded and total. -/
structure ProgressEvent where
  downloaded : ℚ
  total : Option ℚ
  filename : Option String
  speed : String
  eta : String
deriving DecidableEq, Repr

/-- The body of the inner try (lines 169-224): find a percentage token
(float() on it may raise ValueError, and if no whitespace-separated part
contains a percent sign the name percentage stays unbound, a NameError),
then sizes, rate and ETA.  The error payload is the loop state at the
raise point: the assignments to downloaded_bytes and total_bytes made
before an exception survive it, since the except handler only logs. -/
def progressBlockE (st : ParseState) (line : String) :
    Except ParseState (ParseState × ProgressEvent) :=
  match (pySplitWs line).find? (fun p => strHasSub p "%") with
  | none => .error st
  | some pctPart =>
    match pyFloat (pyRstripPct pctPart) with
    | none => .error st
    | some _percentage =>
      let sizes := sizeFindAll line
      let upd : Except ParseState ParseState :=
        if 2 ≤ sizes.length then
          let (dStr, dUnit) := sizes.getD 0 ("", "")
          let (tStr, tUnit) := sizes.getD 1 ("", "")
          match pyFloat dStr with
          | none => .error st
          | some dv =>
            let st1 := { st with downloaded := dv * unitMult dUnit }
            match pyFloat tStr with
            | none => .error st1
            | some tv => .ok { st1 with total := some (tv * unitMult tUnit) }
        else .ok st
      match upd with
      | .error stE => .error stE
      | .ok st1 =>
        let speedStr :=
          match speedSearch line with
          | some (v, u) => v ++ " " ++ u ++ "B/s"
          | none => "Unknown"
        let etaStr :=
          match etaSearch line with
          | some m => strRemoveAll m "ETA "
          | none => "Unknown"
        .ok (st1, ⟨st1.downloaded, st1.total, st1.filename, speedStr, etaStr⟩)

/-- Exceptions that can escape one iteration of the line loop. -/
inductive PyExn
  | indexError
deriving DecidableEq, Repr

/-- One iteration of download_url's line loop.  The only potentially
raising operation outside the inner try is the [1] index into
line.split("Destination:"); errors of the inner progress block are
caught in place (line dropped, prior loop-variable updates kept). -/
def parseLineE (st : ParseState) (line : String) :
    Except PyExn (ParseState × Option ProgressEvent) :=
  let destStep : Except PyExn ParseState :=
    if strHasSub line "[download]" && strHasSub line "Destination:" then
      match (pySplitOn line "Destination:").get? 1 with
      | none => Except.error PyExn.indexError
      | some seg => Except.ok { st with filename := some (pyStrip seg) }
    else Except.ok st
  match destStep with
  | .error e => Except.error e
  | .ok st1 =>
    if strHasSub line "[download]" && strHasSub line "%" then
      match progressBlockE st1 line with
      | .ok (st2, ev) => Except.ok (st2, some ev)
      | .error stE => Except.ok (stE, none)
    else
      Except.ok (st1, none)

/-- The same iteration as a total function (justified by the theorem that
parseLineE never returns an error). -/
def parseLineOk (st : ParseState) (line : String) :
    ParseState × Option ProgressEvent :=
  match parseLineE st line with
  | .ok r => r
  | .error _ => (st, none)

/-! ## download_url's result (lines 228-242) -/

/-- Environment of one download_url call: the lines the tool wrote to its
combined stream, its exit code, and the file-existence predicate. -/
structure FetchEnv where
  lines : List String
  returncode : ℤ
  pathExists : String → Bool

/-- The filename loop variable after all lines are consumed. -/
def resolvedFilename (lines : List String) : Option String :=
  (lines.foldl (fun st l => (parseLineOk st l).1) initParseState).filename

/-- download_url after the stream loop: non-zero exit code, a never
assigned or empty filename (Python not filename), or a missing file all
yield None; otherwise the filename is returned. -/
def downloadUrlE (env : FetchEnv) : Except PyExn (Option String) :=
  match env.lines.foldlM
      (fun st l => (parseLineE st l).map Prod.fst) initParseState with
  | .error e => Except.error e
  | .ok st =>
    if env.returncode ≠ 0 then Except.ok none
    else
      match st.filename with
      | none => Except.ok none
      | some f =>
        if f = "" then Except.ok none
        else if env.pathExists f then Except.ok (some f)
        else Except.ok none

/-- download_url with its outermost except handler (any escaped exception
yields None). -/
def download_url (env : FetchEnv) : Option String :=
  match downloadUrlE env with
  | .ok r => r
  | .error _ => none

/-- Concrete fetch environment for the download_url witness. -/
def fetchEnvW : FetchEnv :=
  { lines := ["[download] Destination: /d/v.mp4"]
    returncode := 0
    pathExists := fun s => s == "/d/v.mp4" }

/-! ## extract_formats (yt_helper.py lines 50-103) and the format keyboard

Every dict access in extract_formats goes through .get with a default;
a key that is absent and a key bound to null behave identically in each
of them (the height and tbr defaults are additionally forced by an
or 0), so both are modelled by an Option-valued field being none. -/

/-- One entry of the capability document's formats list. -/
structure RawFormat where
  format_id : Option String
  height : Option ℤ
  tbr : Option ℚ
  vcodec : Option String
  formatStr : Option String
  format_note : Option String
  ext : Option String
  filesize : Option ℤ
deriving DecidableEq, Repr

/-- The capability document as extract_formats consumes it: only the
formats list matters; a falsy document or one without a "formats" key is
formats = none. -/
structure Info where
  formats : Option (List RawFormat)

/-- One entry of the result list (lines 90-95). -/
structure OutFormat where
  format_id : String
  format_note : String
  ext : String
  filesize : ℤ
deriving DecidableEq, Repr

/-- The sort key (x.get("height", 0) or 0, x.get("tbr", 0) or 0). -/
def fmtKey (f : RawFormat) : ℤ × ℚ := (f.height.getD 0, f.tbr.getD 0)

/-- Strict lexicographic order on sort keys (Python tuple <). -/
def keyLt (a b : ℤ × ℚ) : Bool := a.1 < b.1 || (a.1 = b.1 && a.2 < b.2)

/-- Lexicographic order on sort keys (Python tuple <=). -/
def keyLe (a b : ℤ × ℚ) : Bool := a.1 < b.1 || (a.1 = b.1 && a.2 ≤ b.2)

/-- Stable descending insertion: the new element goes in front of the
first element whose key is ≤ its own, so that among equal keys the
original order survives — exactly sorted(key=..., reverse=True). -/
def insertDesc (f : RawFormat) : List RawFormat → List RawFormat
  | [] => [f]
  | g :: gs =>
    if keyLe (fmtKey g) (fmtKey f) then f :: g :: gs
    else g :: insertDesc f gs

/-- sorted(info["formats"], key=..., reverse=True): fold the stable
descending insertion from the right so earlier elements are inserted
last and land before their key-equal successors. -/
def sortDesc (l : List RawFormat) : List RawFormat := l.foldr insertDesc []

/-- The audio-only test (line 77): vcodec equal to the string "none", or
"audio only" occurring in the lowercased format string. -/
def isAudioOnly (f : RawFormat) : Bool :=
  f.vcodec == some "none" ||
    strHasSub (strLower (f.formatStr.getD "")) "audio only"

/-- The record appended for a kept format (lines 80-95): format_note
gains an "{height}p " marker when the height is truthy. -/
def mkOut (f : RawFormat) : OutFormat :=
  let note := f.format_note.getD "Unknown"
  let note :=
    match f.height with
    | some h => if h ≠ 0 then toString h ++ "p " ++ note else note
    | none => note
  { format_id := f.format_id.getD ""
    format_note := note
    ext := f.ext.getD "mp4"
    filesize := f.filesize.getD 0 }

/-- The loop of extract_formats (lines 69-101) over the sorted list:
skip entries whose format_id was already taken, skip audio-only entries,
append every other entry and record its id, stop as soon as six entries
are collected. -/
def extractGo : List RawFormat → List String → List OutFormat → List OutFormat
  | [], _, acc => acc
  | f :: rest, seen, acc =>
    if (f.format_id.getD "") ∈ seen then extractGo rest seen acc
    else if isAudioOnly f then extractGo rest seen acc
    else
      let acc1 := acc ++ [mkOut f]
      if 6 ≤ acc1.length then acc1
      else extractGo rest ((f.format_id.getD "") :: seen) acc1

/-- YTDLHelper.extract_formats. -/
def extract_formats (info : Option Info) : List OutFormat :=
  match info with
  | none => []
  | some i =>
    match i.formats with
    | none => []
    | some fs => extractGo (sortDesc fs) [] []

/-- Keep the first occurrence of every format_id (given ids already
seen), drop the rest: the deduplication step stated by the spec. -/
def dedupeById : List String → List RawFormat → List RawFormat
  | _, [] => []
  | seen, f :: rest =>
    if (f.format_id.getD "") ∈ seen then dedupeById seen rest
    else f :: dedupeById ((f.format_id.getD "") :: seen) rest

/-- The spec's description of format resolution as a pipeline: sort
descending by (height, bitrate), drop audio-only entries, deduplicate on
format identifier, cap at the first six. -/
def specFormats (info : Option Info) : List OutFormat :=
  match info with
  | none => []
  | some i =>
    match i.formats with
    | none => []
    | some fs =>
      List.take 6
        ((dedupeById [] ((sortDesc fs).filter (fun f => !isAudioOnly f))).map
          mkOut)

/-- The callback payloads of the format keyboard built by process_message
(main.py lines 383-394): one button per extracted format, then the
implicit Best Quality button. -/
def formatChoiceData (info : Option Info) : List String :=
  (extract_formats info).map (fun f => f.format_id) ++ ["best"]

/-! ## split_file (yt_helper.py lines 248-312)

The 1.95 * 1024**3 default chunk size is a Python float; it is modelled
as the exact rational 1.95 · 1024³.  os.path.getsize and open can raise
(modelled with Except), as can spawning ffmpeg; get_video_duration
catches its own errors and returns None or a float (0.0 and None are
both falsy at the if duration: test). -/

/-- The default chunk_size parameter 1.95*1024*1024*1024. -/
def defaultChunkSize : ℚ := (1.95 : ℚ) * 1024 ^ 3

/-- The video-container extensions the source dispatches on. -/
def videoExts : List String := [".mp4", ".mkv", ".avi", ".mov", ".flv"]

/-- file_path.lower().endswith((".mp4", ".mkv", ".avi", ".mov", ".flv")). -/
def isVideoExt (p : String) : Bool :=
  videoExts.any (fun e => strEnds (strLower p) e)

/-- os.path.splitext: split at the last dot of the basename, provided it
comes after at least one leading non-dot character of the basename. -/
def pySplitExt (s : String) : String × String :=
  let cs := s.toList
  let bnLen := (cs.reverse.takeWhile (fun c => c ≠ '/')).length
  let bnStart := cs.length - bnLen
  let bn := cs.drop bnStart
  let leading := (bn.takeWhile (fun c => c = '.')).length
  let tailLen := (bn.reverse.takeWhile (fun c => c ≠ '.')).length
  if tailLen = bn.length then (s, "")
  else
    let d := bn.length - tailLen - 1
    if leading ≤ d then
      (String.mk (cs.take (bnStart + d)), String.mk (cs.drop (bnStart + d)))
    else (s, "")

/-- Python f-string {i:03d}. -/
def pad3 (n : ℕ) : String :=
  if n < 10 then "00" ++ toString n
  else if n < 100 then "0" ++ toString n
  else toString n

/-- The output name of part i (0-based): f"{base_name}.part{i+1:03d}{ext}". -/
def partName (base ext : String) (i : ℕ) : String :=
  base ++ ".part" ++ pad3 (i + 1) ++ ext

/-- math.ceil(file_size / chunk_size). -/
def numParts (size ceiling : ℚ) : ℤ := Int.ceil (size / ceiling)

/-- The planned time ranges of the video strategy (lines 268-278):
part_duration = duration / num_parts, part i remuxed from start time
i * part_duration with length part_duration. -/
def partRanges (duration : ℚ) (n : ℕ) : List (ℚ × ℚ) :=
  (List.range n).map
    (fun i : ℕ => ((i : ℚ) * (duration / (n : ℚ)), duration / (n : ℚ)))

/-- Environment of one split_file call: the path, the chunk_size
parameter, the outcomes of os.path.getsize, get_video_duration, each
ffmpeg spawn (keyed by the time range passed to it), the existence of
each part's output file, and of open(file_path). -/
structure SplitEnv where
  filePath : String
  chunkSize : ℚ
  getsizeR : Except Unit ℕ
  duration : Option ℚ
  ffmpegRun : ℚ × ℚ → Except Unit Unit
  outExists : ℕ → Bool
  openR : Except Unit Unit

/-- The ffmpeg loop of the video strategy: for each planned range spawn
ffmpeg (a raise aborts the loop and propagates) and keep the part name
exactly when its output file exists afterwards. -/
def videoParts (env : SplitEnv) (base ext : String) :
    ℕ → List (ℚ × ℚ) → Except Unit (List String)
  | _, [] => Except.ok []
  | i, r :: rest =>
    match env.ffmpegRun r with
    | .error e => Except.error e
    | .ok _ =>
      match videoParts env base ext (i + 1) rest with
      | .error e => Except.error e
      | .ok parts =>
        if env.outExists i then Except.ok (partName base ext i :: parts)
        else Except.ok parts

/-- The read loop of the byte-slice strategy (lines 296-308): exactly
num_parts iterations; each read returns min(bytes_per_chunk, remaining)
bytes and a chunk is written and recorded only when the read is
non-empty. -/
def bytePartsGo (base ext : String) (bpc : ℕ) :
    ℕ → ℕ → ℕ → List String
  | _, _, 0 => []
  | remaining, i, k + 1 =>
    let data := min bpc remaining
    if data ≠ 0 then
      partName base ext i :: bytePartsGo base ext bpc (remaining - data) (i + 1) k
    else
      bytePartsGo base ext bpc (remaining - data) (i + 1) k

/-- The try body of split_file: stat the file, return it unchanged when
it fits the ceiling, otherwise plan ceil(size/ceiling) parts and run the
video strategy (only for a truthy duration — a None or 0.0 duration
leaves chunk_files as the empty list) or the byte-slice strategy. -/
def splitFileE (env : SplitEnv) : Except Unit (List String) :=
  match env.getsizeR with
  | .error e => Except.error e
  | .ok size =>
    if (size : ℚ) ≤ env.chunkSize then Except.ok [env.filePath]
    else
      let n := (numParts (size : ℚ) env.chunkSize).toNat
      let be := pySplitExt env.filePath
      if isVideoExt env.filePath then
        match env.duration with
        | some d =>
          if d ≠ 0 then videoParts env be.1 be.2 0 (partRanges d n)
          else Except.ok []
        | none => Except.ok []
      else
        match env.openR with
        | .error e => Except.error e
        | .ok _ =>
          Except.ok (bytePartsGo be.1 be.2 (Int.floor env.chunkSize).toNat
            size 0 n)

/-- split_file with its except handler: any exception raised by the body
falls back to the single original path. -/
def split_file (env : SplitEnv) : List String :=
  match splitFileE env with
  | .ok r => r
  | .error _ => [env.filePath]

/-- Concrete environment for the no-op witness. -/
def splitEnvSmall : SplitEnv :=
  { filePath := "/d/v.mp4"
    chunkSize := defaultChunkSize
    getsizeR := Except.ok 1000
    duration := none
    ffmpegRun := fun _ => Except.ok ()
    outExists := fun _ => false
    openR := Except.ok () }

/-- Concrete environment for the fallback witness: getsize raises. -/
def splitEnvErr : SplitEnv :=
  { filePath := "/d/v.mp4"
    chunkSize := defaultChunkSize
    getsizeR := Except.error ()
    duration := none
    ffmpegRun := fun _ => Except.ok ()
    outExists := fun _ => false
    openR := Except.ok () }

/-! ## Admission registry, queue, process_download and cancel_download
(main.py lines 330-668)

active_processes is a dict keyed by requester id; admission
(download_callback line 433) consults key membership only.  The entry is
created when process_download starts (line 495) — not at admission — and
removed in process_download's finally (line 668) and by cancel_download
(line 488).  The queue is the asyncio FIFO jobs are put on (line 450),
drained by the single process_queue worker. -/

/-- The registry key set and the FIFO queue of requester ids. -/
structure SchedState where
  active : List ℕ
  queued : List ℕ
deriving DecidableEq, Repr

/-- Outcome of one admission attempt. -/
inductive AdmitVerdict
  | accepted
  | rejected
deriving DecidableEq, Repr

/-- download_callback's admission decision (lines 432-435, 450): a
requester whose id is a live registry key is turned away with the
already-active answer; anyone else has the job appended to the queue. -/
def admitJob (s : SchedState) (u : ℕ) : SchedState × AdmitVerdict :=
  if u ∈ s.active then (s, AdmitVerdict.rejected)
  else ({ s with queued := s.queued ++ [u] }, AdmitVerdict.accepted)

/-- The worker dequeues the oldest job and the first statement of
process_download registers its requester (line 495; a dict assignment,
so an already present key is overwritten, not duplicated). -/
def startNext (s : SchedState) : SchedState :=
  match s.queued with
  | [] => s
  | j :: rest =>
    { active := if j ∈ s.active then s.active else j :: s.active
      queued := rest }

/-- A terminal transition of a running job: the finally of
process_download pops the requester's registry entry (line 668), as does
cancel_download (line 488). -/
def finishJob (s : SchedState) (u : ℕ) : SchedState :=
  { s with active := s.active.erase u }

/-- Per-requester settings consulted by process_download.  The
upload_as_video and caption settings only shape captions and the
document/video upload kind; neither file removal nor the registry
depends on them. -/
structure PdSettings where
  split_large_files : Bool
  generate_screenshots : Bool
  generate_sample : Bool
  upload_as_video : Bool
  thumbnail : Option String
  caption : Option String

/-- Environment of one process_download run: the download_url result,
file existence (also consulted for the sample clip), the size of the
downloaded file, the generate_thumbnail result, the split_file result,
the generate_screenshots result (each of those four helpers catches its
own exceptions, so they are modelled by their results), and failAt, the
position — counting the awaited external interactions of the try body in
execution order: database calls, status-message edits, uploads, photo
and sample sends — of the first one that raises (none: no interaction
raises).  Only os.remove and the local os.path.getsize/basename calls
are modelled as infallible. -/
structure PdEnv where
  downloadPath : Option String
  pathExists : String → Bool
  fileSize : ℕ
  genThumb : Option String
  splitFiles : List String
  screenshots : List String
  failAt : Option ℕ

/-- Which terminal exit process_download took: the end of the try body,
the except handler, or the early return of the too-large-with-splitting-
disabled check (lines 558-565). -/
inductive TermKind
  | completed
  | failedExc
  | tooLargeStop
deriving DecidableEq, Repr

/-- Observable outcome of a process_download run: every os.remove target
in order, whether the finally released the registry entry, and the
terminal kind. -/
structure PdOutcome where
  removed : List String
  released : Bool
  term : TermKind
deriving DecidableEq, Repr

/-- The 2GB Telegram limit of line 557. -/
def maxTelegramSize : ℚ := 2 * 1024 ^ 3

/-- The 1.95GB split threshold of line 580 (a Python float, modelled as
the exact rational). -/
def splitThreshold : ℚ := (1.95 : ℚ) * 1024 ^ 3

/-- One straight-line step of the try body of process_download: ext is
an awaited external interaction that can raise (a database call, a
status-message edit, an upload_file call — FloodWait is retried inside
it, every other exception propagates — a send_photo or the sample
send_video), and remove is an os.remove, modelled as succeeding. -/
inductive PdStep
  | ext
  | remove (path : String)
deriving DecidableEq, Repr

/-- Whether a step is an awaited external interaction. -/
def isExt : PdStep → Bool
  | .ext => true
  | .remove _ => false

/-- The os.remove targets of a step list, in order. -/
def removalsOf : List PdStep → List String
  | [] => []
  | PdStep.ext :: rest => removalsOf rest
  | PdStep.remove f :: rest => f :: removalsOf rest

/-- Execute a step list under a fail budget: the budget counts the
awaited interactions still allowed to succeed; when it reaches an ext
step at zero, that interaction raises — later steps (removals included)
do not happen.  Returns the removals performed and whether a raise
happened. -/
def runSteps : Option ℕ → List PdStep → List String × Bool
  | _, [] => ([], false)
  | fa, PdStep.remove f :: rest =>
    (f :: (runSteps fa rest).1, (runSteps fa rest).2)
  | none, PdStep.ext :: rest => runSteps none rest
  | some 0, PdStep.ext :: _ => ([], true)
  | some (k + 1), PdStep.ext :: rest => runSteps (some k) rest

/-- The number of awaited interactions in a step list. -/
def extCount (steps : List PdStep) : ℕ := steps.countP isExt

/-- The fail budget left after a step list completes without a raise. -/
def budgetAfter (fa : Option ℕ) (steps : List PdStep) : Option ℕ :=
  match fa with
  | none => none
  | some k => some (k - extCount steps)

/-- The part-upload loop of the split branch (lines 584-607): per part a
status edit, the upload, then os.remove of the part. -/
def partSteps : List String → List PdStep
  | [] => []
  | f :: rest => PdStep.ext :: PdStep.ext :: PdStep.remove f :: partSteps rest

/-- The screenshot loop (lines 612-614 and 640-642): per screenshot a
send_photo then os.remove. -/
def shotSteps : List String → List PdStep
  | [] => []
  | f :: rest => PdStep.ext :: PdStep.remove f :: shotSteps rest

/-- Thumbnail resolution (lines 567-574): a truthy user thumbnail wins,
otherwise a video download gets generate_thumbnail's result. -/
def thumbChoice (s : PdSettings) (env : PdEnv) (p : String) : Option String :=
  match s.thumbnail with
  | some t =>
    if t ≠ "" then some t
    else if isVideoExt p then env.genThumb else none
  | none => if isVideoExt p then env.genThumb else none

/-- The thumbnail-removal step of lines 658-659: a truthy thumbnail path
is removed unless it lives under thumbnails/ (requester-persisted). -/
def pdThumbSteps (env : PdEnv) (s : PdSettings) (p : String) : List PdStep :=
  match thumbChoice s env p with
  | some t =>
    if t ≠ "" ∧ strStarts t "thumbnails/" = false then [PdStep.remove t]
    else []
  | none => []

/-- The upload phase (lines 580-644): the split branch runs the per-part
loop, the optional screenshot loop and the completion edit (586-616);
the single branch runs an edit, the upload, the optional screenshot
block with its own leading edit, and the completion edit (622-644). -/
def pdBranch (env : PdEnv) (s : PdSettings) : List PdStep :=
  if splitThreshold < (env.fileSize : ℚ) ∧ s.split_large_files = true then
    partSteps env.splitFiles
    ++ (if s.generate_screenshots = true then shotSteps env.screenshots
        else [])
    ++ [PdStep.ext]
  else
    [PdStep.ext, PdStep.ext]
    ++ (if s.generate_screenshots = true then
          PdStep.ext :: shotSteps env.screenshots
        else [])
    ++ [PdStep.ext]

/-- The sample block of lines 647-654: when enabled and the sample file
exists, send it then remove it. -/
def pdSample (env : PdEnv) (s : PdSettings) (p : String) : List PdStep :=
  if s.generate_sample = true ∧ env.pathExists (p ++ ".sample.mp4") = true
  then [PdStep.ext, PdStep.remove (p ++ ".sample.mp4")]
  else []

/-- Everything the normal path runs before os.remove(download_path): the
pre-download interactions (update_last_activity 496, get_user_settings
523, the edits at 526 and 547), the upload phase, the sample block. -/
def pdFront (env : PdEnv) (s : PdSettings) (p : String) : List PdStep :=
  List.replicate 4 PdStep.ext ++ pdBranch env s ++ pdSample env s p

/-- The straight-line trace of the try body on the normal path: the
front, os.remove(download_path) at 657, the thumbnail removal at
658-659, and db.increment_downloads at 662 — the one awaited interaction
left after the file cleanup. -/
def pdTrace (env : PdEnv) (s : PdSettings) (p : String) : List PdStep :=
  pdFront env s p
    ++ PdStep.remove p :: (pdThumbSteps env s p ++ [PdStep.ext])

/-- The trace of the too-large early exit (lines 558-565): the four
pre-download interactions, the warning edit at 559, then
os.remove(download_path) at 563. -/
def tooLargeTrace (p : String) : List PdStep :=
  List.replicate 5 PdStep.ext ++ [PdStep.remove p]

/-- All removals the normal path performs when it runs to completion. -/
def pdRemovals (env : PdEnv) (s : PdSettings) (p : String) : List String :=
  removalsOf (pdTrace env s p)

/-- process_download (lines 492-668).  A missing or vanished download
ends in the except handler with nothing removed — as does a raise in one
of the interactions before it, which also removes nothing, so the two
are not distinguished here.  Otherwise the body runs its straight-line
trace (tooLargeTrace for the too-large early exit, pdTrace for the
normal path) under the environment's fail budget: a raise anywhere ends
the run Failed with exactly the removals performed up to that point; a
completed trace ends tooLargeStop respectively Completed with every
scheduled removal performed.  Every exit runs the finally, which
releases the registry entry; the except handler itself removes
nothing. -/
def process_download (env : PdEnv) (s : PdSettings) : PdOutcome :=
  match env.downloadPath with
  | none => ⟨[], true, TermKind.failedExc⟩
  | some p =>
    if env.pathExists p = false then ⟨[], true, TermKind.failedExc⟩
    else if maxTelegramSize < (env.fileSize : ℚ) ∧ s.split_large_files = false
    then
      if (runSteps env.failAt (tooLargeTrace p)).2 = true then
        ⟨(runSteps env.failAt (tooLargeTrace p)).1, true, TermKind.failedExc⟩
      else
        ⟨(runSteps env.failAt (tooLargeTrace p)).1, true,
          TermKind.tooLargeStop⟩
    else
      if (runSteps env.failAt (pdTrace env s p)).2 = true then
        ⟨(runSteps env.failAt (pdTrace env s p)).1, true, TermKind.failedExc⟩
      else
        ⟨(runSteps env.failAt (pdTrace env s p)).1, true, TermKind.completed⟩

/-- Outcome of cancel_download (lines 477-490). -/
structure CancelOutcome where
  processTerminated : Bool
  removed : List String
  released : Bool
deriving DecidableEq, Repr

/-- cancel_download: without an active registry entry it only answers;
with one it terminates the stored process handle if any and pops the
entry.  It removes no files. -/
def cancel_download (hasActive : Bool) (hasProcessHandle : Bool) :
    CancelOutcome :=
  if hasActive then ⟨hasProcessHandle, [], true⟩
  else ⟨false, [], false⟩

/-- Concrete run for the C2 counterexample: the download succeeds and
materializes /dl/v.mp4; on the single-upload path the sixth awaited
interaction — the upload_file call at line 626, after the edits at 496,
523, 526, 547 and 622 — raises, so the run ends Failed with the
downloaded file not removed although the registry entry is. -/
def pdEnvFail : PdEnv :=
  { downloadPath := some "/dl/v.mp4"
    pathExists := fun q => q == "/dl/v.mp4"
    fileSize := 1000
    genThumb := none
    splitFiles := []
    screenshots := []
    failAt := some 5 }

/-- Settings for the C2 counterexample and witness runs. -/
def pdSettingsFail : PdSettings :=
  { split_large_files := true
    generate_screenshots := false
    generate_sample := false
    upload_as_video := true
    thumbnail := none
    caption := none }

/-- Concrete completed run for the C2 witness: no interaction raises. -/
def pdEnvOk : PdEnv :=
  { downloadPath := some "/dl/w.mp4"
    pathExists := fun q => q == "/dl/w.mp4"
    fileSize := 1000
    genThumb := none
    splitFiles := []
    screenshots := []
    failAt := none }

/-! ## Theorems -/

/-! ## The split lemma: the Destination index never raises -/
theorem splitOnGo_ne_nil (sep : List Char) :
    ∀ fuel cs, splitOnGo sep fuel cs ≠ [] := by
  intro fuel cs
  match fuel, cs with
  | fuel, [] => simp [splitOnGo]
  | 0, c :: rest => simp [splitOnGo]
  | fuel + 1, c :: rest =>
    rw [splitOnGo]
    split
    · simp
    · split <;> simp

theorem listHasSub_cons_elim {sep : List Char} {c : Char} {rest : List Char}
    (h : listHasSub sep (c :: rest) = true)
    (hst : listStarts sep (c :: rest) = false) :
    listHasSub sep rest = true := by
  rw [listHasSub] at h
  simpa [hst] using h

theorem splitOnGo_length_of_sub (sep : List Char) (hsep : sep.isEmpty = false) :
    ∀ fuel cs, cs.length ≤ fuel → listHasSub sep cs = true →
      2 ≤ (splitOnGo sep fuel cs).length := by
  intro fuel
  induction fuel with
  | zero =>
    intro cs hlen h
    match cs with
    | [] =>
      rw [listHasSub] at h
      simp [h] at hsep
    | c :: rest => simp at hlen
  | succ fuel ih =>
    intro cs hlen h
    match cs with
    | [] =>
      rw [listHasSub] at h
      simp [h] at hsep
    | c :: rest =>
      rw [splitOnGo]
      by_cases hst : listStarts sep (c :: rest) = true
      · simp only [hst, if_true]
        have hne := splitOnGo_ne_nil sep fuel (List.drop sep.length (c :: rest))
        cases hq : splitOnGo sep fuel (List.drop sep.length (c :: rest)) with
        | nil => exact absurd hq hne
        | cons a t => simp [hq]
      · have hsub := listHasSub_cons_elim h (by simpa using hst)
        have hr : rest.length ≤ fuel := by
          simp only [List.length_cons] at hlen
          omega
        have h2 := ih rest hr hsub
        simp only [hst, Bool.false_eq_true, if_false, reduceIte]
        cases hq : splitOnGo sep fuel rest with
        | nil => exact absurd hq (splitOnGo_ne_nil sep fuel rest)
        | cons h2l t =>
          rw [hq] at h2
          simpa using h2

theorem parseLineE_ok (st : ParseState) (line : String) :
    parseLineE st line = Except.ok (parseLineOk st line) := by
  have hok : ∃ r, parseLineE st line = Except.ok r := by
    by_cases hdl : (strHasSub line "[download]" &&
        strHasSub line "Destination:") = true
    · have hsub : listHasSub ("Destination:".toList) line.toList = true := by
        have := (Bool.and_eq_true _ _).mp hdl
        exact this.2
      have hlen : 2 ≤ (pySplitOn line "Destination:").length := by
        have := splitOnGo_length_of_sub ("Destination:".toList) (by decide)
          line.toList.length line.toList (le_refl _) hsub
        simpa [pySplitOn] using this
      have hget : ∃ seg, (pySplitOn line "Destination:").get? 1 = some seg := by
        cases hq : (pySplitOn line "Destination:").get? 1 with
        | none =>
          rw [List.get?_eq_none] at hq
          omega
        | some seg => exact ⟨seg, rfl⟩
      obtain ⟨seg, hseg⟩ := hget
      simp only [parseLineE, hdl, hseg, if_true]
      split
      · split <;> exact ⟨_, rfl⟩
      · exact ⟨_, rfl⟩
    · have hdl := Bool.of_not_eq_true hdl
      simp only [parseLineE, hdl, Bool.false_eq_true, if_false, reduceIte]
      split
      · split <;> exact ⟨_, rfl⟩
      · exact ⟨_, rfl⟩
  obtain ⟨r, hr⟩ := hok
  rw [hr, parseLineOk, hr]

theorem foldlM_parseLineE (lines : List String) :
    ∀ st, lines.foldlM (fun st l => (parseLineE st l).map Prod.fst) st
      = Except.ok (lines.foldl (fun st l => (parseLineOk st l).1) st) := by
  induction lines with
  | nil => intro st; rfl
  | cons l rest ih =>
    intro st
    simp only [List.foldlM_cons, List.foldl_cons, parseLineE_ok st l,
      Except.map_ok]
    exact ih (parseLineOk st l).1

/-- C3: for the single line "[download]  42.5% of 10.00MiB at 512.00KiB/s
ETA 00:08" the code emits a progress event with downloaded 0, total None
and rate text "Unknown" (only the ETA "00:08" and the parsed-then-unused
percentage 42.5 come out as the spec describes): the size and rate
regexes of download_url demand a literal i between the captured unit and
the optional B, so the real tokens 10.00MiB and 512.00KiB/s never match.
This evaluates the embedded parser at that exact line. -/
theorem progress_line_eval :
    parseLineOk initParseState
      "[download]  42.5% of 10.00MiB at 512.00KiB/s ETA 00:08" =
    ({ filename := none, downloaded := 0, total := none },
     some { downloaded := 0, total := none, filename := none,
            speed := "Unknown", eta := "00:08" }) := by decide

/-- C7: one iteration of download_url's line loop never lets an exception
escape (the only raising operation outside the inner try, the [1] index
into line.split("Destination:"), is guarded by the substring test), and
a line without the "[download]" marker — in particular a line with no
recognizable tokens — produces no progress event and leaves the loop
state unchanged; parse errors inside the progress block are absorbed by
its except handler by construction of parseLineE. -/
theorem parse_line_never_raises (st : ParseState) (line : String) :
    parseLineE st line = Except.ok (parseLineOk st line)
    ∧ (strHasSub line "[download]" = false →
        parseLineOk st line = (st, none)) := by
  refine ⟨parseLineE_ok st line, fun h => ?_⟩
  rw [parseLineOk]
  simp [parseLineE, h]

theorem parse_line_never_raises_witness :
    parseLineE initParseState "no tokens here" =
      Except.ok (parseLineOk initParseState "no tokens here")
    ∧ parseLineOk initParseState "no tokens here" = (initParseState, none) :=
  ⟨(parse_line_never_raises initParseState "no tokens here").1,
   (parse_line_never_raises initParseState "no tokens here").2 (by decide)⟩

/-- C6: download_url returns a path exactly when the tool exited with
code 0 and the filename resolved from the Destination lines names an
existing file; a non-zero exit code, a never resolved filename, or a
missing file yield None.  The hypothesis states that the empty path
(which Python's not filename also rejects) does not name an existing
file, true of any real filesystem. -/
theorem download_url_success_iff (env : FetchEnv) (p : String)
    (hempty : env.pathExists "" = false) :
    download_url env = some p ↔
      env.returncode = 0 ∧ resolvedFilename env.lines = some p
        ∧ env.pathExists p = true := by
  rw [download_url, downloadUrlE, foldlM_parseLineE, resolvedFilename]
  by_cases hrc : env.returncode = 0
  · simp only [hrc, ne_eq, not_true_eq_false, reduceIte, if_false]
    cases hf : (env.lines.foldl
        (fun st l => (parseLineOk st l).1) initParseState).filename with
    | none => simp
    | some f =>
      by_cases hemp : f = ""
      · subst hemp
        simp only [if_true, reduceIte]
        constructor
        · intro h; exact absurd h (by simp)
        · rintro ⟨-, hp, hex⟩
          obtain rfl : p = "" := by simpa using hp.symm
          rw [hempty] at hex
          exact absurd hex (by simp)
      · simp only [hemp, if_false, reduceIte]
        by_cases hex : env.pathExists f = true
        · simp only [hex, if_true, reduceIte]
          constructor
          · intro h
            obtain rfl : f = p := by simpa using h
            exact ⟨trivial, rfl, hex⟩
          · rintro ⟨-, hp, -⟩
            simpa using hp
        · simp only [hex, if_false]
          constructor
          · intro h; exact absurd h (by simp [Bool.of_not_eq_true hex])
          · rintro ⟨-, hp, hpe⟩
            obtain rfl : f = p := by simpa using hp
            exact absurd hpe hex
  · simp only [hrc, ne_eq, not_false_eq_true, if_true, reduceIte]
    constructor
    · intro h; exact absurd h (by simp)
    · rintro ⟨h0, -, -⟩; exact h0.elim

theorem download_url_success_iff_witness :
    fetchEnvW.pathExists "" = false ∧ download_url fetchEnvW = some "/d/v.mp4" :=
  ⟨by decide,
   (download_url_success_iff fetchEnvW "/d/v.mp4" (by decide)).mpr
     ⟨rfl, by decide, by decide⟩⟩

theorem dedupeById_filter_skip (seen : List String) (f : RawFormat)
    (rest : List RawFormat) (hseen : (f.format_id.getD "") ∈ seen) :
    dedupeById seen ((f :: rest).filter (fun g => !isAudioOnly g)) =
      dedupeById seen (rest.filter (fun g => !isAudioOnly g)) := by
  by_cases haud : isAudioOnly f = true
  · simp [List.filter_cons, haud]
  · simp only [Bool.not_eq_true] at haud
    simp [List.filter_cons, haud, dedupeById, hseen]

theorem extractGo_eq (l : List RawFormat) :
    ∀ seen acc, acc.length < 6 →
      extractGo l seen acc =
        acc ++ List.take (6 - acc.length)
          ((dedupeById seen (l.filter (fun g => !isAudioOnly g))).map mkOut) := by
  induction l with
  | nil => intro seen acc hacc; simp [extractGo, dedupeById]
  | cons f rest ih =>
    intro seen acc hacc
    by_cases hseen : (f.format_id.getD "") ∈ seen
    · rw [extractGo, if_pos hseen, dedupeById_filter_skip seen f rest hseen]
      exact ih seen acc hacc
    · by_cases haud : isAudioOnly f = true
      · rw [extractGo, if_neg hseen, if_pos haud]
        simp only [List.filter_cons, haud, Bool.not_true, Bool.false_eq_true,
          if_false, reduceIte]
        exact ih seen acc hacc
      · simp only [Bool.not_eq_true] at haud
        rw [extractGo, if_neg hseen, if_neg (by simp [haud])]
        simp only [List.filter_cons, haud, Bool.not_false, if_true, reduceIte,
          dedupeById, if_neg hseen, List.map_cons]
        by_cases hlen : 6 ≤ (acc ++ [mkOut f]).length
        · have h5 : acc.length = 5 := by
            simp only [List.length_append, List.length_cons,
              List.length_nil] at hlen
            omega
          rw [if_pos hlen]
          have h1 : 6 - acc.length = 1 := by omega
          simp [h1]
        · rw [if_neg hlen]
          have hlt : (acc ++ [mkOut f]).length < 6 := by omega
          rw [ih ((f.format_id.getD "") :: seen) (acc ++ [mkOut f]) hlt]
          have hlen2 : (acc ++ [mkOut f]).length = acc.length + 1 := by simp
          rw [hlen2]
          have htake : 6 - acc.length = (6 - (acc.length + 1)) + 1 := by omega
          rw [htake, List.take_succ_cons, List.append_assoc]
          simp

/-! Order facts about the sort key, and sortedness of sortDesc. -/
theorem keyLe_trans {a b c : ℤ × ℚ} (hab : keyLe a b = true)
    (hbc : keyLe b c = true) : keyLe a c = true := by
  simp only [keyLe, Bool.or_eq_true, Bool.and_eq_true, decide_eq_true_eq] at *
  rcases hab with h | ⟨h1, h2⟩ <;> rcases hbc with h' | ⟨h1', h2'⟩
  · exact Or.inl (lt_trans h h')
  · exact Or.inl (h1' ▸ h)
  · exact Or.inl (h1 ▸ h')
  · exact Or.inr ⟨h1.trans h1', le_trans h2 h2'⟩

theorem keyLe_total_of_not {a b : ℤ × ℚ} (h : ¬ keyLe a b = true) :
    keyLe b a = true := by
  simp only [keyLe, Bool.or_eq_true, Bool.and_eq_true, decide_eq_true_eq,
    not_or, not_and, not_le, not_lt] at *
  obtain ⟨h1, h2⟩ := h
  rcases lt_or_eq_of_le h1 with hlt | heq
  · exact Or.inl hlt
  · exact Or.inr ⟨heq, le_of_lt (h2 heq.symm)⟩

theorem mem_insertDesc {f x : RawFormat} :
    ∀ {l : List RawFormat}, x ∈ insertDesc f l ↔ x = f ∨ x ∈ l := by
  intro l
  induction l with
  | nil => simp [insertDesc]
  | cons g gs ih =>
    rw [insertDesc]
    by_cases hle : keyLe (fmtKey g) (fmtKey f) = true
    · simp [hle]
    · simp only [hle, Bool.false_eq_true, if_false, reduceIte, List.mem_cons,
        ih]
      tauto

theorem pairwise_insertDesc {f : RawFormat} {l : List RawFormat}
    (h : l.Pairwise (fun a b => keyLe (fmtKey b) (fmtKey a) = true)) :
    (insertDesc f l).Pairwise (fun a b => keyLe (fmtKey b) (fmtKey a) = true) := by
  induction l with
  | nil => simp [insertDesc]
  | cons g gs ih =>
    rw [List.pairwise_cons] at h
    obtain ⟨hg, hgs⟩ := h
    rw [insertDesc]
    by_cases hle : keyLe (fmtKey g) (fmtKey f) = true
    · rw [if_pos hle, List.pairwise_cons]
      refine ⟨?_, List.pairwise_cons.mpr ⟨hg, hgs⟩⟩
      intro x hx
      rcases List.mem_cons.mp hx with rfl | hx'
      · exact hle
      · exact keyLe_trans (hg x hx') hle
    · rw [if_neg hle, List.pairwise_cons]
      refine ⟨?_, ih hgs⟩
      intro x hx
      rcases mem_insertDesc.mp hx with rfl | hx'
      · exact keyLe_total_of_not hle
      · exact hg x hx'

theorem sortDesc_pairwise (l : List RawFormat) :
    (sortDesc l).Pairwise (fun a b => keyLe (fmtKey b) (fmtKey a) = true) := by
  induction l with
  | nil => simp [sortDesc]
  | cons f rest ih => exact pairwise_insertDesc ih

/-- C5: format resolution equals the spec pipeline — sort the capability
list by descending (height, bitrate) with the stable descending sort,
drop audio-only entries, keep the first occurrence of every format
identifier, cap at the first six — the sorted list is really descending
in the key order, the result never exceeds six entries, and the caller's
keyboard ends with the implicit "best" choice. -/
theorem extract_formats_spec (info : Option Info) :
    extract_formats info = specFormats info
    ∧ (∀ fs : List RawFormat,
        (sortDesc fs).Pairwise (fun a b => keyLe (fmtKey b) (fmtKey a) = true))
    ∧ (extract_formats info).length ≤ 6
    ∧ (formatChoiceData info).getLast? = some "best" := by
  have hmain : extract_formats info = specFormats info := by
    match info with
    | none => rfl
    | some i =>
      match hf : i.formats with
      | none => simp [extract_formats, specFormats, hf]
      | some fs =>
        simp only [extract_formats, specFormats, hf]
        rw [extractGo_eq (sortDesc fs) [] [] (by simp)]
        simp
  refine ⟨hmain, fun fs => sortDesc_pairwise fs, ?_, ?_⟩
  · rw [hmain]
    match info with
    | none => simp [specFormats]
    | some i =>
      match hf : i.formats with
      | none => simp [specFormats, hf]
      | some fs =>
        simp only [specFormats, hf]
        exact le_trans (List.length_take_le 6 _) (le_refl 6)
  · simp [formatChoiceData]

/-- C10: extract_formats yields the empty list, raising nothing, when the
capability document is None (or falsy) or has no formats list. -/
theorem extract_formats_empty (i : Info) (h : i.formats = none) :
    extract_formats none = [] ∧ extract_formats (some i) = [] := by
  simp [extract_formats, h]

theorem extract_formats_empty_witness :
    extract_formats none = [] ∧ extract_formats (some ⟨none⟩) = [] :=
  extract_formats_empty ⟨none⟩ rfl

/-- C8: a file at or below the ceiling is not split — split_file returns
exactly the original path. -/
theorem split_file_small_noop (env : SplitEnv) (n : ℕ)
    (hs : env.getsizeR = Except.ok n) (hle : (n : ℚ) ≤ env.chunkSize) :
    split_file env = [env.filePath] := by
  rw [split_file, splitFileE, hs]
  simp [hle]

theorem split_file_small_noop_witness :
    splitEnvSmall.getsizeR = Except.ok 1000
    ∧ (1000 : ℚ) ≤ splitEnvSmall.chunkSize
    ∧ split_file splitEnvSmall = ["/d/v.mp4"] :=
  ⟨rfl, by norm_num [splitEnvSmall, defaultChunkSize],
   split_file_small_noop splitEnvSmall 1000 rfl
     (by norm_num [splitEnvSmall, defaultChunkSize])⟩

/-- C9: split_file never propagates an exception — whenever its body
raises (the file cannot be statted, opened, or an ffmpeg spawn fails),
the except handler returns the single-element list holding the original
unsplit path. -/
theorem split_file_error_fallback (env : SplitEnv) (e : Unit)
    (h : splitFileE env = Except.error e) :
    split_file env = [env.filePath] := by
  rw [split_file, h]

theorem split_file_error_fallback_witness :
    splitFileE splitEnvErr = Except.error ()
    ∧ split_file splitEnvErr = ["/d/v.mp4"] :=
  ⟨rfl, split_file_error_fallback splitEnvErr () rfl⟩

/-- C4: for a video of known positive duration D whose size exceeds the
ceiling, the plan consumed by split_file's video strategy has exactly
n = ceil(size/ceiling) ranges (n ≥ 1), range i starting at i·(D/n) with
length D/n, consecutive ranges contiguous (each next start is the
previous start plus its length, so positive-length ranges never
overlap), and the lengths summing exactly to D. -/
theorem segment_plan_ranges (size ceiling D : ℚ) (n : ℕ)
    (hc : 0 < ceiling) (hs : ceiling < size) (hd : 0 < D)
    (hn : n = (numParts size ceiling).toNat) :
    (partRanges D n).length = n ∧ 1 ≤ n
    ∧ (∀ i, i < n →
        (partRanges D n).getD i (0, 0) = ((i : ℚ) * (D / n), D / n))
    ∧ (∀ i, i + 1 < n →
        ((partRanges D n).getD (i + 1) (0, 0)).1 =
          ((partRanges D n).getD i (0, 0)).1 +
            ((partRanges D n).getD i (0, 0)).2)
    ∧ ((partRanges D n).map Prod.snd).sum = D
    ∧ 0 < D / (n : ℚ) := by
  have hone : (1 : ℚ) < size / ceiling := (one_lt_div hc).mpr hs
  have hceil : (1 : ℤ) < Int.ceil (size / ceiling) := by
    exact Int.lt_ceil.mpr (by exact_mod_cast hone)
  have hn1 : 1 ≤ n := by
    rw [hn, numParts]
    omega
  have hnq : (0 : ℚ) < (n : ℚ) := by exact_mod_cast hn1
  have hget : ∀ i, i < n →
      (partRanges D n).getD i (0, 0) = ((i : ℚ) * (D / n), D / n) := by
    intro i hi
    rw [partRanges, List.getD_eq_getElem?_getD]
    rw [List.getElem?_map, List.getElem?_range hi]
    rfl
  refine ⟨by simp [partRanges], hn1, hget, ?_, ?_, div_pos hd hnq⟩
  · intro i hi
    rw [hget (i + 1) hi, hget i (by omega)]
    push_cast
    ring
  · have hmap : (partRanges D n).map Prod.snd =
        List.replicate n (D / (n : ℚ)) := by
      rw [partRanges, List.map_map]
      rw [List.eq_replicate_iff]
      constructor
      · simp
      · intro b hb
        simp only [List.mem_map, List.mem_range, Function.comp_apply] at hb
        obtain ⟨i, -, hbi⟩ := hb
        exact hbi.symm
    rw [hmap, List.sum_replicate, nsmul_eq_mul]
    exact mul_div_cancel₀ D (ne_of_gt hnq)

theorem segment_plan_ranges_witness :
    (0 : ℚ) < 2 ∧ (2 : ℚ) < 5 ∧ (0 : ℚ) < 3
    ∧ (3 : ℕ) = (numParts 5 2).toNat
    ∧ (partRanges 3 3).length = 3
    ∧ ((partRanges 3 3).map Prod.snd).sum = 3 := by
  have hnp : numParts 5 2 = 3 := by
    rw [numParts, Int.ceil_eq_iff]
    norm_num
  have h := segment_plan_ranges 5 2 3 3 (by norm_num) (by norm_num)
    (by norm_num) (by rw [hnp]; rfl)
  exact ⟨by norm_num, by norm_num, by norm_num, by rw [hnp]; rfl,
    h.1, h.2.2.2.2.1⟩

/-! ## Theorems about admission and cleanup -/

/-- C1: the admission check and the registry insert are separated — the
check happens in download_callback but the entry appears only when
process_download starts — so two back-to-back admissions for the same
requester, both arriving before the worker dequeues the first job, are
BOTH accepted, while the first job (queued, hence non-terminal) is still
pending: the claimed exactly-one-accepted invariant fails on that
interleaving.  The remaining conjuncts record the parts the code does
honor: once the first job is running an admission is rejected, and after
its terminal transition an admission succeeds again. -/
theorem admit_race_eval :
    ((admitJob ⟨[], []⟩ 7).2 = AdmitVerdict.accepted
      ∧ (admitJob (admitJob ⟨[], []⟩ 7).1 7).2 = AdmitVerdict.accepted
      ∧ (admitJob ⟨[], []⟩ 7).1.queued = [7])
    ∧ (admitJob (startNext (admitJob ⟨[], []⟩ 7).1) 7).2 = AdmitVerdict.rejected
    ∧ (admitJob (finishJob (startNext (admitJob ⟨[], []⟩ 7).1) 7) 7).2 =
        AdmitVerdict.accepted := by
  decide

theorem removalsOf_append (xs ys : List PdStep) :
    removalsOf (xs ++ ys) = removalsOf xs ++ removalsOf ys := by
  induction xs with
  | nil => simp [removalsOf]
  | cons st rest ih => cases st <;> simp [removalsOf, ih]

theorem removalsOf_replicate_ext (n : ℕ) :
    removalsOf (List.replicate n PdStep.ext) = [] := by
  induction n with
  | zero => rfl
  | succ n ih => simpa [List.replicate_succ, removalsOf] using ih

theorem removalsOf_partSteps (parts : List String) :
    removalsOf (partSteps parts) = parts := by
  induction parts with
  | nil => rfl
  | cons f rest ih => simp [partSteps, removalsOf, ih]

theorem removalsOf_shotSteps (shots : List String) :
    removalsOf (shotSteps shots) = shots := by
  induction shots with
  | nil => rfl
  | cons f rest ih => simp [shotSteps, removalsOf, ih]

theorem removalsOf_tooLargeTrace (p : String) :
    removalsOf (tooLargeTrace p) = [p] := by
  rw [tooLargeTrace, removalsOf_append, removalsOf_replicate_ext]
  rfl

theorem runSteps_nil (fa : Option ℕ) : runSteps fa [] = ([], false) := by
  match fa with
  | none => rfl
  | some 0 => rfl
  | some (k + 1) => rfl

theorem runSteps_sub :
    ∀ (steps : List PdStep) (fa : Option ℕ),
      (runSteps fa steps).1 ⊆ removalsOf steps := by
  intro steps
  induction steps with
  | nil => intro fa; simp [runSteps]
  | cons st rest ih =>
    intro fa
    cases st with
    | remove f =>
      rw [runSteps, removalsOf]
      exact List.cons_subset_cons f (ih fa)
    | ext =>
      rw [removalsOf]
      match fa with
      | none => exact ih none
      | some 0 => simp [runSteps]
      | some (k + 1) => exact ih (some k)

theorem runSteps_complete :
    ∀ (steps : List PdStep) (fa : Option ℕ),
      (runSteps fa steps).2 = false →
      (runSteps fa steps).1 = removalsOf steps := by
  intro steps
  induction steps with
  | nil => intro fa h; rw [runSteps_nil]; rfl
  | cons st rest ih =>
    intro fa h
    cases st with
    | remove f =>
      rw [runSteps] at h ⊢
      rw [removalsOf]
      simp only at h ⊢
      rw [ih fa h]
    | ext =>
      rw [removalsOf]
      match fa with
      | none => exact ih none (by simpa [runSteps] using h)
      | some 0 => simp [runSteps] at h
      | some (k + 1) => exact ih (some k) (by simpa [runSteps] using h)

theorem runSteps_no_ext :
    ∀ (steps : List PdStep), (∀ st ∈ steps, st ≠ PdStep.ext) →
      ∀ fa, runSteps fa steps = (removalsOf steps, false) := by
  intro steps
  induction steps with
  | nil => intro _ fa; rw [runSteps_nil]; rfl
  | cons st rest ih =>
    intro h fa
    cases st with
    | ext => exact absurd rfl (h PdStep.ext (List.mem_cons_self _ _))
    | remove f =>
      have hr := ih (fun st hst => h st (List.mem_cons_of_mem _ hst)) fa
      rw [runSteps, removalsOf, hr]

theorem extCount_cons_remove (f : String) (rest : List PdStep) :
    extCount (PdStep.remove f :: rest) = extCount rest := by
  simp [extCount, List.countP_cons, isExt]

theorem extCount_cons_ext (rest : List PdStep) :
    extCount (PdStep.ext :: rest) = extCount rest + 1 := by
  simp [extCount, List.countP_cons, isExt]

theorem runSteps_append :
    ∀ (xs : List PdStep) (fa : Option ℕ) (ys : List PdStep),
      runSteps fa (xs ++ ys) =
        if (runSteps fa xs).2 = true then runSteps fa xs
        else ((runSteps fa xs).1 ++ (runSteps (budgetAfter fa xs) ys).1,
              (runSteps (budgetAfter fa xs) ys).2) := by
  intro xs
  induction xs with
  | nil =>
    intro fa ys
    have hb : budgetAfter fa [] = fa := by
      cases fa <;> simp [budgetAfter, extCount]
    simp [runSteps, hb]
  | cons st rest ih =>
    intro fa ys
    cases st with
    | remove f =>
      have hb : budgetAfter fa (PdStep.remove f :: rest) =
          budgetAfter fa rest := by
        cases fa <;> simp [budgetAfter, extCount_cons_remove]
      rw [List.cons_append, runSteps, runSteps, ih fa ys, hb]
      by_cases hr : (runSteps fa rest).2 = true
      · simp [hr]
      · simp [hr]
    | ext =>
      match fa with
      | none =>
        have hb : budgetAfter none (PdStep.ext :: rest) =
            budgetAfter none rest := rfl
        rw [List.cons_append, runSteps, runSteps, ih none ys, hb]
      | some 0 =>
        simp [runSteps]
      | some (k + 1) =>
        have hb : budgetAfter (some (k + 1)) (PdStep.ext :: rest) =
            budgetAfter (some k) rest := by
          simp only [budgetAfter, extCount_cons_ext]
          congr 1
          omega
        rw [List.cons_append, runSteps, runSteps, ih (some k) ys, hb]

theorem runSteps_single_ext_fst (fa : Option ℕ) :
    (runSteps fa [PdStep.ext]).1 = [] := by
  match fa with
  | none => simp [runSteps, runSteps_nil]
  | some 0 => rfl
  | some (k + 1) => simp [runSteps, runSteps_nil]

theorem runSteps_tooLarge_raised (fa : Option ℕ) (p : String)
    (h : (runSteps fa (tooLargeTrace p)).2 = true) :
    (runSteps fa (tooLargeTrace p)).1 = [] := by
  rw [tooLargeTrace, runSteps_append] at h ⊢
  by_cases hr : (runSteps fa (List.replicate 5 PdStep.ext)).2 = true
  · rw [if_pos hr]
    have hsub := runSteps_sub (List.replicate 5 PdStep.ext) fa
    rw [removalsOf_replicate_ext] at hsub
    exact List.eq_nil_iff_forall_not_mem.mpr
      fun x hx => List.not_mem_nil x (hsub hx)
  · rw [if_neg hr] at h
    simp [runSteps] at h

theorem pdThumbSteps_no_ext (env : PdEnv) (s : PdSettings) (p : String) :
    ∀ st ∈ pdThumbSteps env s p, st ≠ PdStep.ext := by
  intro st hst
  rw [pdThumbSteps] at hst
  split at hst
  · split at hst
    · simp only [List.mem_singleton] at hst
      subst hst
      simp
    · simp at hst
  · simp at hst

theorem mem_removalsOf_front {env : PdEnv} {s : PdSettings} {p x : String}
    (hx : x ∈ removalsOf (pdFront env s p)) :
    x ∈ env.splitFiles ∨ x ∈ env.screenshots ∨ x = p ++ ".sample.mp4" := by
  rw [pdFront, removalsOf_append, removalsOf_append,
    removalsOf_replicate_ext] at hx
  simp only [List.nil_append, List.mem_append] at hx
  rcases hx with hb | hs
  · rw [pdBranch] at hb
    split at hb
    · rw [removalsOf_append, removalsOf_append, removalsOf_partSteps] at hb
      simp only [List.mem_append] at hb
      rcases hb with (h1 | h2) | h3
      · exact Or.inl h1
      · by_cases hg : s.generate_screenshots = true
        · rw [if_pos hg, removalsOf_shotSteps] at h2
          exact Or.inr (Or.inl h2)
        · rw [if_neg hg] at h2
          simp [removalsOf] at h2
      · simp [removalsOf] at h3
    · rw [removalsOf_append, removalsOf_append] at hb
      simp only [List.mem_append] at hb
      rcases hb with (h1 | h2) | h3
      · simp [removalsOf] at h1
      · by_cases hg : s.generate_screenshots = true
        · rw [if_pos hg] at h2
          rw [show removalsOf (PdStep.ext :: shotSteps env.screenshots) =
            removalsOf (shotSteps env.screenshots) from rfl,
            removalsOf_shotSteps] at h2
          exact Or.inr (Or.inl h2)
        · rw [if_neg hg] at h2
          simp [removalsOf] at h2
      · simp [removalsOf] at h3
  · rw [pdSample] at hs
    split at hs
    · simp only [removalsOf, List.mem_singleton] at hs
      exact Or.inr (Or.inr hs)
    · simp [removalsOf] at hs

theorem mem_pdRemovals {env : PdEnv} {s : PdSettings} {p x : String}
    (hx : x ∈ pdRemovals env s p) :
    x ∈ env.splitFiles ∨ x ∈ env.screenshots ∨ x = p
      ∨ x = p ++ ".sample.mp4"
      ∨ ∃ tv, thumbChoice s env p = some tv ∧ x = tv
          ∧ strStarts tv "thumbnails/" = false := by
  rw [pdRemovals, pdTrace, removalsOf_append] at hx
  simp only [removalsOf, List.mem_append, List.mem_cons] at hx
  rcases hx with hf | hx | ht
  · rcases mem_removalsOf_front hf with h | h | h
    · exact Or.inl h
    · exact Or.inr (Or.inl h)
    · exact Or.inr (Or.inr (Or.inr (Or.inl h)))
  · exact Or.inr (Or.inr (Or.inl hx))
  · rw [removalsOf_append] at ht
    simp only [List.mem_append] at ht
    rcases ht with ht | ht
    · rw [pdThumbSteps] at ht
      rcases htc : thumbChoice s env p with _ | tv
      · rw [htc] at ht
        simp [removalsOf] at ht
      · rw [htc] at ht
        split at ht
        · rename_i m hm
          injection hm with hm
          rw [← hm] at ht
          split at ht
          · rename_i hcond
            simp only [removalsOf, List.mem_singleton,
              List.not_mem_nil, or_false] at ht
            exact Or.inr (Or.inr (Or.inr (Or.inr ⟨tv, rfl, ht, hcond.2⟩)))
          · simp [removalsOf] at ht
        · rename_i hm
          exact absurd hm (by simp)
    · simp [removalsOf] at ht

theorem self_mem_pdRemovals (env : PdEnv) (s : PdSettings) (p : String) :
    p ∈ pdRemovals env s p := by
  rw [pdRemovals, pdTrace, removalsOf_append]
  simp [removalsOf]

theorem ne_append_sample (p : String) : p ≠ p ++ ".sample.mp4" := by
  intro h
  have hl := congrArg String.length h
  rw [String.length_append] at hl
  have h11 : ".sample.mp4".length = 11 := rfl
  omega

theorem pd_released (env : PdEnv) (s : PdSettings) :
    (process_download env s).released = true := by
  rw [process_download]
  split
  · rfl
  · split
    · rfl
    · split
      · split
        · rfl
        · rfl
      · split
        · rfl
        · rfl

theorem pd_completed_removes (env : PdEnv) (s : PdSettings) (p : String)
    (hdp : env.downloadPath = some p)
    (hc : (process_download env s).term = TermKind.completed) :
    p ∈ (process_download env s).removed := by
  by_cases c1 : env.pathExists p = false
  · simp [process_download, hdp, c1] at hc
  · by_cases c2 : maxTelegramSize < (env.fileSize : ℚ)
        ∧ s.split_large_files = false
    · by_cases c3 : (runSteps env.failAt (tooLargeTrace p)).2 = true
      · simp [process_download, hdp, c1, c2, c3] at hc
      · simp [process_download, hdp, c1, c2, c3] at hc
    · by_cases c4 : (runSteps env.failAt (pdTrace env s p)).2 = true
      · simp [process_download, hdp, c1, c2, c4] at hc
      · have hrm : (process_download env s).removed =
            (runSteps env.failAt (pdTrace env s p)).1 := by
          simp [process_download, hdp, c1, c2, c4]
        rw [hrm, runSteps_complete (pdTrace env s p) env.failAt
          (Bool.of_not_eq_true c4)]
        exact self_mem_pdRemovals env s p

theorem pd_tooLarge_removes (env : PdEnv) (s : PdSettings) (p : String)
    (hdp : env.downloadPath = some p)
    (hc : (process_download env s).term = TermKind.tooLargeStop) :
    p ∈ (process_download env s).removed := by
  by_cases c1 : env.pathExists p = false
  · simp [process_download, hdp, c1] at hc
  · by_cases c2 : maxTelegramSize < (env.fileSize : ℚ)
        ∧ s.split_large_files = false
    · by_cases c3 : (runSteps env.failAt (tooLargeTrace p)).2 = true
      · simp [process_download, hdp, c1, c2, c3] at hc
      · have hrm : (process_download env s).removed =
            (runSteps env.failAt (tooLargeTrace p)).1 := by
          simp [process_download, hdp, c1, c2, c3]
        rw [hrm, runSteps_complete (tooLargeTrace p) env.failAt
          (Bool.of_not_eq_true c3), removalsOf_tooLargeTrace]
        simp
    · by_cases c4 : (runSteps env.failAt (pdTrace env s p)).2 = true
      · simp [process_download, hdp, c1, c2, c4] at hc
      · simp [process_download, hdp, c1, c2, c4] at hc

theorem pd_failed_eq (env : PdEnv) (s : PdSettings) (p : String)
    (hdp : env.downloadPath = some p)
    (hf : (process_download env s).term = TermKind.failedExc)
    (hp1 : p ∉ env.splitFiles) (hp2 : p ∉ env.screenshots)
    (hmem : p ∈ (process_download env s).removed) :
    (process_download env s).removed = pdRemovals env s p := by
  by_cases c1 : env.pathExists p = false
  · have : (process_download env s).removed = [] := by
      simp [process_download, hdp, c1]
    rw [this] at hmem
    simp at hmem
  · by_cases c2 : maxTelegramSize < (env.fileSize : ℚ)
        ∧ s.split_large_files = false
    · by_cases c3 : (runSteps env.failAt (tooLargeTrace p)).2 = true
      · have hrm : (process_download env s).removed =
            (runSteps env.failAt (tooLargeTrace p)).1 := by
          simp [process_download, hdp, c1, c2, c3]
        rw [hrm, runSteps_tooLarge_raised env.failAt p c3] at hmem
        simp at hmem
      · simp [process_download, hdp, c1, c2, c3] at hf
    · by_cases c4 : (runSteps env.failAt (pdTrace env s p)).2 = true
      · have hrm : (process_download env s).removed =
            (runSteps env.failAt (pdTrace env s p)).1 := by
          simp [process_download, hdp, c1, c2, c4]
        rw [hrm] at hmem ⊢
        rw [pdTrace, runSteps_append] at hmem c4 ⊢
        by_cases hfr : (runSteps env.failAt (pdFront env s p)).2 = true
        · rw [if_pos hfr] at hmem
          have hsub := runSteps_sub (pdFront env s p) env.failAt hmem
          rcases mem_removalsOf_front hsub with h | h | h
          · exact absurd h hp1
          · exact absurd h hp2
          · exact absurd h (ne_append_sample p)
        · rw [if_neg hfr]
          have hfc := runSteps_complete (pdFront env s p) env.failAt
            (Bool.of_not_eq_true hfr)
          have hthumb := runSteps_no_ext (pdThumbSteps env s p)
            (pdThumbSteps_no_ext env s p)
            (budgetAfter env.failAt (pdFront env s p))
          rw [runSteps, runSteps_append, hthumb] at *
          simp only [Bool.false_eq_true, if_false, reduceIte] at *
          rw [pdRemovals, pdTrace, removalsOf_append, hfc]
          simp only [removalsOf, removalsOf_append,
            runSteps_single_ext_fst, List.append_nil]
      · simp [process_download, hdp, c1, c2, c4] at hf

theorem pd_thumb_kept (env : PdEnv) (s : PdSettings) (t : String)
    (hth : s.thumbnail = some t)
    (hpref : strStarts t "thumbnails/" = true)
    (ht : t ∈ (process_download env s).removed) :
    t ∈ env.splitFiles ∨ t ∈ env.screenshots ∨
      ∃ p, env.downloadPath = some p ∧ (t = p ∨ t = p ++ ".sample.mp4") := by
  cases hdp : env.downloadPath with
  | none => simp [process_download, hdp] at ht
  | some p =>
    by_cases c1 : env.pathExists p = false
    · simp [process_download, hdp, c1] at ht
    · by_cases c2 : maxTelegramSize < (env.fileSize : ℚ)
          ∧ s.split_large_files = false
      · have hrm : (process_download env s).removed =
            (runSteps env.failAt (tooLargeTrace p)).1 := by
          by_cases c3 : (runSteps env.failAt (tooLargeTrace p)).2 = true
          · simp [process_download, hdp, c1, c2, c3]
          · simp [process_download, hdp, c1, c2, c3]
        rw [hrm] at ht
        have hsub := runSteps_sub (tooLargeTrace p) env.failAt ht
        rw [removalsOf_tooLargeTrace] at hsub
        simp only [List.mem_singleton] at hsub
        exact Or.inr (Or.inr ⟨p, rfl, Or.inl hsub⟩)
      · have hrm : (process_download env s).removed =
            (runSteps env.failAt (pdTrace env s p)).1 := by
          by_cases c4 : (runSteps env.failAt (pdTrace env s p)).2 = true
          · simp [process_download, hdp, c1, c2, c4]
          · simp [process_download, hdp, c1, c2, c4]
        rw [hrm] at ht
        have hsub := runSteps_sub (pdTrace env s p) env.failAt ht
        rcases mem_pdRemovals hsub with h | h | h | h | ⟨tv, -, rfl, hfalse⟩
        · exact Or.inl h
        · exact Or.inr (Or.inl h)
        · exact Or.inr (Or.inr ⟨p, rfl, Or.inl h⟩)
        · exact Or.inr (Or.inr ⟨p, rfl, Or.inr h⟩)
        · rw [hpref] at hfalse
          exact absurd hfalse (by simp)

/-- C2 counterexample: a run that reaches the Failed terminal state with
the materialized download /dl/v.mp4 not removed — the upload raises
before the cleanup at line 657 ever executes — while the registry entry
is released.  The file-removal half of the claimed cleanup does not run
on this terminal transition. -/
theorem cleanup_claim_cex :
    (process_download pdEnvFail pdSettingsFail).term = TermKind.failedExc
    ∧ (process_download pdEnvFail pdSettingsFail).released = true
    ∧ "/dl/v.mp4" ∉ (process_download pdEnvFail pdSettingsFail).removed := by
  have hmax : ¬ (maxTelegramSize < ((1000 : ℕ) : ℚ)) := by
    norm_num [maxTelegramSize]
  have hsplit : ¬ (splitThreshold < ((1000 : ℕ) : ℚ)) := by
    norm_num [splitThreshold]
  refine ⟨?_, ?_, ?_⟩ <;>
  · simp only [process_download, pdEnvFail, pdSettingsFail, pdTrace, pdFront,
      pdBranch, pdSample, pdThumbSteps, thumbChoice, hmax, hsplit,
      false_and, Bool.false_eq_true, and_false, if_false, reduceIte, ite_self]
    decide

/-- C2 (amended): on every terminal transition of process_download the
requester's registry entry is released (the finally always pops it, and
cancel_download pops it too), so the requester can admit a new job.
File cleanup, by contrast, is not tied to the terminal transition:
removals happen inline in the try body and the except handler removes
nothing.  A Completed run and the too-large early exit remove the
downloaded file; a Failed run keeps exactly the removals executed
before the exception — so the downloaded file is gone in a Failed run
only when every scheduled removal had already run, the failure being
the statistics write after the cleanup at line 657 — and cancel_download
removes no files.  A requester-persisted thumbnail (a path under
thumbnails/) is never a removal target except by colliding with a job
artifact path. -/
theorem cleanup_amended (env : PdEnv) (s : PdSettings) :
    (process_download env s).released = true
    ∧ (∀ p, env.downloadPath = some p →
        (process_download env s).term = TermKind.completed →
        p ∈ (process_download env s).removed)
    ∧ (∀ p, env.downloadPath = some p →
        (process_download env s).term = TermKind.tooLargeStop →
        p ∈ (process_download env s).removed)
    ∧ (∀ p, env.downloadPath = some p →
        (process_download env s).term = TermKind.failedExc →
        p ∉ env.splitFiles → p ∉ env.screenshots →
        p ∈ (process_download env s).removed →
        (process_download env s).removed = pdRemovals env s p)
    ∧ (∀ t, s.thumbnail = some t → strStarts t "thumbnails/" = true →
        t ∈ (process_download env s).removed →
        t ∈ env.splitFiles ∨ t ∈ env.screenshots ∨
          ∃ p, env.downloadPath = some p ∧ (t = p ∨ t = p ++ ".sample.mp4"))
    ∧ (∀ b, (cancel_download true b).removed = []
        ∧ (cancel_download true b).released = true) :=
  ⟨pd_released env s,
   fun p hdp hc => pd_completed_removes env s p hdp hc,
   fun p hdp hc => pd_tooLarge_removes env s p hdp hc,
   fun p hdp hf hp1 hp2 hmem => pd_failed_eq env s p hdp hf hp1 hp2 hmem,
   fun t hth hpref ht => pd_thumb_kept env s t hth hpref ht,
   fun _ => ⟨rfl, rfl⟩⟩

theorem cleanup_amended_witness :
    (process_download pdEnvOk pdSettingsFail).released = true
    ∧ "/dl/w.mp4" ∈ (process_download pdEnvOk pdSettingsFail).removed :=
  ⟨(cleanup_amended pdEnvOk pdSettingsFail).1,
   (cleanup_amended pdEnvOk pdSettingsFail).2.1 "/dl/w.mp4" rfl (by
     have hmax : ¬ (maxTelegramSize < ((1000 : ℕ) : ℚ)) := by
       norm_num [maxTelegramSize]
     have hsplit : ¬ (splitThreshold < ((1000 : ℕ) : ℚ)) := by
       norm_num [splitThreshold]
     simp only [process_download, pdEnvOk, pdSettingsFail, pdTrace, pdFront,
       pdBranch, pdSample, pdThumbSteps, thumbChoice, hmax, hsplit,
       false_and, Bool.false_eq_true, and_false, if_false, reduceIte,
       ite_self]
     decide)⟩


end UrlUploader
